import Mathlib

/-!
Verification of the secam motion-extraction pipeline.

The definitions below are a shallow embedding of the Python sources:
`motion_detector.py` (motion scorer, segment tracker loop, range merger)
and `video_processor.py` (clip exporter padding and write loop, batch loop).
Python machine-independent values are modelled as `Int`/`Nat`; the Python
floats that only ever feed `int(...)` conversions are modelled as `ℚ`.
-/

namespace Secam

/-- Python `int(q)` on a real value: truncation toward zero. -/
def pyInt (q : ℚ) : Int := if 0 ≤ q then ⌊q⌋ else ⌈q⌉

/-! ### Range Merger — `MotionDetector._merge_ranges` (motion_detector.py lines 239–275)

A range is a pair `(start_frame, end_frame) : Int × Int`.
-/

/-- The comparison used by `sorted(ranges, key=lambda x: x[0])`. -/
def startLe (a b : Int × Int) : Prop := a.1 ≤ b.1

instance : DecidableRel startLe := fun a b => inferInstanceAs (Decidable (a.1 ≤ b.1))

instance : IsTotal (Int × Int) startLe := ⟨fun a b => le_total a.1 b.1⟩

instance : IsTrans (Int × Int) startLe := ⟨fun _ _ _ hab hbc => le_trans hab hbc⟩

/-- `sorted_ranges = sorted(ranges, key=lambda x: x[0])` (line 262). -/
def sortRanges (ranges : List (Int × Int)) : List (Int × Int) :=
  List.insertionSort startLe ranges

/-- The greedy sweep of lines 264–273: `cur` is `merged[-1]`, the segment still
being extended; each remaining `(start, end)` is merged into it when
`start - last_end <= gap_threshold_frames`, otherwise `cur` is flushed. -/
def mergeSweep (gap : Int) : (Int × Int) → List (Int × Int) → List (Int × Int)
  | cur, [] => [cur]
  | cur, (s, e) :: rest =>
    if s - cur.2 ≤ gap then mergeSweep gap (cur.1, max cur.2 e) rest
    else cur :: mergeSweep gap (s, e) rest

/-- `merged = [sorted_ranges[0]]` followed by the sweep over `sorted_ranges[1:]`. -/
def mergeSorted (gap : Int) : List (Int × Int) → List (Int × Int)
  | [] => []
  | first :: rest => mergeSweep gap first rest

/-- `_merge_ranges` with the gap already converted to frames
(`gap_threshold_frames = int(gap_threshold_seconds * fps)`, line 259). -/
def mergeRangesFrames (ranges : List (Int × Int)) (gap_threshold_frames : Int) :
    List (Int × Int) :=
  if ranges = [] then []
  else mergeSorted gap_threshold_frames (sortRanges ranges)

/-- `MotionDetector._merge_ranges(ranges, fps, gap_threshold_seconds)`. -/
def merge_ranges (ranges : List (Int × Int)) (fps gap_threshold_seconds : ℚ) :
    List (Int × Int) :=
  mergeRangesFrames ranges (pyInt (gap_threshold_seconds * fps))

/-- Two ranges are disjoint when no frame index lies in both closed intervals. -/
def segDisjoint (a b : Int × Int) : Prop :=
  ∀ t : Int, ¬(a.1 ≤ t ∧ t ≤ a.2 ∧ b.1 ≤ t ∧ t ≤ b.2)

theorem mergeSweep_head (gap : Int) :
    ∀ (l : List (Int × Int)) (cur : Int × Int),
      ∃ e2 rest, mergeSweep gap cur l = (cur.1, e2) :: rest ∧ cur.2 ≤ e2 := by
  intro l
  induction l with
  | nil =>
      intro cur
      exact ⟨cur.2, [], rfl, le_refl _⟩
  | cons hd rest ih =>
      intro cur
      obtain ⟨s, e⟩ := hd
      by_cases hc : s - cur.2 ≤ gap
      · obtain ⟨e2, rest', heq, hle⟩ := ih (cur.1, max cur.2 e)
        refine ⟨e2, rest', ?_, ?_⟩
        · simpa [mergeSweep, hc] using heq
        · exact le_trans (le_max_left _ _) hle
      · exact ⟨cur.2, mergeSweep gap (s, e) rest, by simp [mergeSweep, hc], le_refl _⟩

theorem mergeSweep_ne_nil (gap : Int) (l : List (Int × Int)) (cur : Int × Int) :
    mergeSweep gap cur l ≠ [] := by
  obtain ⟨e2, rest, heq, -⟩ := mergeSweep_head gap l cur
  simp [heq]

theorem mergeSweep_pairwise (gap : Int) :
    ∀ (l : List (Int × Int)) (cur : Int × Int),
      (∀ x ∈ l, cur.1 ≤ x.1) → l.Pairwise startLe →
      (mergeSweep gap cur l).Pairwise (fun a b => a.1 ≤ b.1 ∧ a.2 + gap < b.1) ∧
        ∀ y ∈ mergeSweep gap cur l, cur.1 ≤ y.1 := by
  intro l
  induction l with
  | nil =>
      intro cur _ _
      constructor
      · simp [mergeSweep]
      · intro y hy
        simp only [mergeSweep, List.mem_singleton] at hy
        simp [hy]
  | cons hd rest ih =>
      intro cur hlb hpw
      obtain ⟨s, e⟩ := hd
      have hcs : cur.1 ≤ s := hlb (s, e) (List.mem_cons_self _ _)
      have hlb' : ∀ x ∈ rest, cur.1 ≤ x.1 := fun x hx => hlb x (List.mem_cons_of_mem _ hx)
      rw [List.pairwise_cons] at hpw
      obtain ⟨hhd, hpw'⟩ := hpw
      by_cases hc : s - cur.2 ≤ gap
      · have := ih (cur.1, max cur.2 e) hlb' hpw'
        constructor
        · simpa [mergeSweep, hc] using this.1
        · intro y hy
          exact this.2 y (by simpa [mergeSweep, hc] using hy)
      · have hslb : ∀ x ∈ rest, (s, e).1 ≤ x.1 := fun x hx => hhd x hx
        obtain ⟨hP, hmem⟩ := ih (s, e) hslb hpw'
        have hgap : cur.2 + gap < s := by omega
        constructor
        · rw [show mergeSweep gap cur ((s, e) :: rest)
              = cur :: mergeSweep gap (s, e) rest by simp [mergeSweep, hc]]
          refine List.pairwise_cons.mpr ⟨?_, hP⟩
          intro y hy
          have hsy : s ≤ y.1 := hmem y hy
          exact ⟨le_trans hcs hsy, by omega⟩
        · intro y hy
          rw [show mergeSweep gap cur ((s, e) :: rest)
              = cur :: mergeSweep gap (s, e) rest by simp [mergeSweep, hc]] at hy
          rcases List.mem_cons.mp hy with h | h
          · simp [h]
          · exact le_trans hcs (hmem y h)

theorem mergeSweep_noop (gap : Int) :
    ∀ (l : List (Int × Int)) (cur : Int × Int),
      (cur :: l).Chain' (fun a b => a.2 + gap < b.1) →
      mergeSweep gap cur l = cur :: l := by
  intro l
  induction l with
  | nil => intro cur _; rfl
  | cons hd rest ih =>
      intro cur hch
      obtain ⟨s, e⟩ := hd
      rw [List.chain'_cons] at hch
      obtain ⟨hrel, hch'⟩ := hch
      have hc : ¬ s - cur.2 ≤ gap := by
        simp only at hrel
        omega
      simp [mergeSweep, hc, ih (s, e) hch']

theorem mergeSweep_cover (gap : Int) :
    ∀ (l : List (Int × Int)) (cur : Int × Int),
      (∀ x ∈ l, cur.1 ≤ x.1) → l.Pairwise startLe →
      ∀ x ∈ l, ∃ y ∈ mergeSweep gap cur l, y.1 ≤ x.1 ∧ x.2 ≤ y.2 := by
  intro l
  induction l with
  | nil => intro cur _ _ x hx; exact absurd hx (List.not_mem_nil x)
  | cons hd rest ih =>
      intro cur hlb hpw x hx
      obtain ⟨s, e⟩ := hd
      have hcs : cur.1 ≤ s := hlb (s, e) (List.mem_cons_self _ _)
      have hlb' : ∀ z ∈ rest, cur.1 ≤ z.1 := fun z hz => hlb z (List.mem_cons_of_mem _ hz)
      rw [List.pairwise_cons] at hpw
      obtain ⟨hhd, hpw'⟩ := hpw
      by_cases hc : s - cur.2 ≤ gap
      · rw [show mergeSweep gap cur ((s, e) :: rest)
            = mergeSweep gap (cur.1, max cur.2 e) rest by simp [mergeSweep, hc]]
        rcases List.mem_cons.mp hx with hxe | hxr
        · obtain ⟨e2, rest', heq, hle⟩ := mergeSweep_head gap rest (cur.1, max cur.2 e)
          refine ⟨(cur.1, e2), by simp [heq], ?_, ?_⟩
          · simpa [hxe] using hcs
          · have : e ≤ max cur.2 e := le_max_right _ _
            simp only [hxe]
            exact le_trans this (by simpa using hle)
        · exact ih (cur.1, max cur.2 e) hlb' hpw' x hxr
      · rw [show mergeSweep gap cur ((s, e) :: rest)
            = cur :: mergeSweep gap (s, e) rest by simp [mergeSweep, hc]]
        rcases List.mem_cons.mp hx with hxe | hxr
        · obtain ⟨e2, rest', heq, hle⟩ := mergeSweep_head gap rest (s, e)
          refine ⟨(s, e2), ?_, ?_, ?_⟩
          · simp [heq]
          · simp [hxe]
          · simpa [hxe] using hle
        · obtain ⟨y, hy, h1, h2⟩ := ih (s, e) (fun z hz => hhd z hz) hpw' x hxr
          exact ⟨y, List.mem_cons_of_mem _ hy, h1, h2⟩

theorem mergeSweep_bounds (gap : Int) :
    ∀ (l : List (Int × Int)) (cur : Int × Int),
      ∀ y ∈ mergeSweep gap cur l,
        (y.1 = cur.1 ∨ ∃ x ∈ l, y.1 = x.1) ∧ (y.2 = cur.2 ∨ ∃ x ∈ l, y.2 = x.2) := by
  intro l
  induction l with
  | nil =>
      intro cur y hy
      simp only [mergeSweep, List.mem_singleton] at hy
      simp [hy]
  | cons hd rest ih =>
      intro cur y hy
      obtain ⟨s, e⟩ := hd
      by_cases hc : s - cur.2 ≤ gap
      · rw [show mergeSweep gap cur ((s, e) :: rest)
            = mergeSweep gap (cur.1, max cur.2 e) rest by simp [mergeSweep, hc]] at hy
        obtain ⟨h1, h2⟩ := ih (cur.1, max cur.2 e) y hy
        constructor
        · rcases h1 with h | ⟨x, hx, hxe⟩
          · exact Or.inl h
          · exact Or.inr ⟨x, List.mem_cons_of_mem _ hx, hxe⟩
        · rcases h2 with h | ⟨x, hx, hxe⟩
          · simp only at h
            rcases le_total cur.2 e with hme | hme
            · exact Or.inr ⟨(s, e), List.mem_cons_self _ _, by simp [h, max_eq_right hme]⟩
            · exact Or.inl (by simp [h, max_eq_left hme])
          · exact Or.inr ⟨x, List.mem_cons_of_mem _ hx, hxe⟩
      · rw [show mergeSweep gap cur ((s, e) :: rest)
            = cur :: mergeSweep gap (s, e) rest by simp [mergeSweep, hc]] at hy
        rcases List.mem_cons.mp hy with h | h
        · simp [h]
        · obtain ⟨h1, h2⟩ := ih (s, e) y h
          constructor
          · rcases h1 with h' | ⟨x, hx, hxe⟩
            · exact Or.inr ⟨(s, e), List.mem_cons_self _ _, h'⟩
            · exact Or.inr ⟨x, List.mem_cons_of_mem _ hx, hxe⟩
          · rcases h2 with h' | ⟨x, hx, hxe⟩
            · exact Or.inr ⟨(s, e), List.mem_cons_self _ _, h'⟩
            · exact Or.inr ⟨x, List.mem_cons_of_mem _ hx, hxe⟩

/-- The output of a nonempty merge, decomposed through the sorted input. -/
theorem mergeRangesFrames_eq_sweep (ranges : List (Int × Int)) (gap : Int)
    (hr : ranges ≠ []) :
    ∃ first rest, sortRanges ranges = first :: rest ∧
      mergeRangesFrames ranges gap = mergeSweep gap first rest := by
  have hperm : sortRanges ranges ≠ [] := by
    intro h
    exact hr (List.Perm.eq_nil ((List.perm_insertionSort startLe ranges).symm.trans (h ▸ List.Perm.refl _)))
  cases hsl : sortRanges ranges with
  | nil => exact absurd hsl hperm
  | cons first rest =>
      exact ⟨first, rest, rfl, by simp [mergeRangesFrames, hr, hsl, mergeSorted]⟩

/-- Core merge guarantees, over the sorted prefix decomposition. -/
theorem mergeRangesFrames_pairwise (ranges : List (Int × Int)) (gap : Int) :
    (mergeRangesFrames ranges gap).Pairwise (fun a b => a.1 ≤ b.1 ∧ a.2 + gap < b.1) := by
  by_cases hr : ranges = []
  · simp [mergeRangesFrames, hr]
  · obtain ⟨first, rest, hsl, heq⟩ := mergeRangesFrames_eq_sweep ranges gap hr
    have hsorted : (first :: rest).Pairwise startLe := by
      have := List.sorted_insertionSort startLe ranges
      rw [sortRanges] at hsl
      rw [hsl] at this
      exact this
    rw [List.pairwise_cons] at hsorted
    rw [heq]
    exact (mergeSweep_pairwise gap rest first (fun x hx => hsorted.1 x hx) hsorted.2).1

/-- Re-merging the merger's own output changes nothing (frame-level form). -/
theorem mergeRangesFrames_idem (ranges : List (Int × Int)) (gap : Int) :
    mergeRangesFrames (mergeRangesFrames ranges gap) gap = mergeRangesFrames ranges gap := by
  by_cases hr : ranges = []
  · simp [mergeRangesFrames, hr]
  · obtain ⟨first, rest, hsl, heq⟩ := mergeRangesFrames_eq_sweep ranges gap hr
    have hP := mergeRangesFrames_pairwise ranges gap
    have hMne : mergeRangesFrames ranges gap ≠ [] := by
      rw [heq]
      exact mergeSweep_ne_nil gap rest first
    have hMsorted : List.Sorted startLe (mergeRangesFrames ranges gap) :=
      hP.imp (fun h => h.1)
    have hMchain : (mergeRangesFrames ranges gap).Chain' (fun a b => a.2 + gap < b.1) :=
      (hP.imp (fun h => h.2)).chain'
    have hsortM : sortRanges (mergeRangesFrames ranges gap) = mergeRangesFrames ranges gap :=
      List.Sorted.insertionSort_eq hMsorted
    rw [mergeRangesFrames, if_neg hMne, hsortM]
    cases hM : mergeRangesFrames ranges gap with
    | nil => exact absurd hM hMne
    | cons m0 mrest =>
        rw [hM] at hMchain
        simpa [mergeSorted] using mergeSweep_noop gap mrest m0 hMchain

/-! ### Segment Tracker — the analysis loop of
`MotionDetector.analyze_video_for_motion` (motion_detector.py lines 198–230)

The per-sampled-frame result of `self.detect_motion(frame, roi)` is abstracted
as `detect : Nat → Bool` indexed by the source frame index; `stop_check` and
`progress_callback` are absent (an uninterrupted run). `m` counts the frames
still to be read, `frame_count`, `current_motion_start` and `motion_ranges`
are the loop variables of the source.
-/

def trackFrames (detect : Nat → Bool) (frame_skip : Nat) :
    Nat → Nat → Option Nat → List (Nat × Nat) → List (Nat × Nat)
  | 0, frame_count, current_motion_start, motion_ranges =>
      match current_motion_start with
      | some s => motion_ranges ++ [(s, frame_count - 1)]
      | none => motion_ranges
  | m + 1, frame_count, current_motion_start, motion_ranges =>
      if frame_count % frame_skip = 0 then
        if detect frame_count then
          match current_motion_start with
          | some _ => trackFrames detect frame_skip m (frame_count + 1)
              current_motion_start motion_ranges
          | none => trackFrames detect frame_skip m (frame_count + 1)
              (some frame_count) motion_ranges
        else
          match current_motion_start with
          | some s => trackFrames detect frame_skip m (frame_count + 1)
              none (motion_ranges ++ [(s, frame_count - 1)])
          | none => trackFrames detect frame_skip m (frame_count + 1)
              none motion_ranges
      else trackFrames detect frame_skip m (frame_count + 1)
        current_motion_start motion_ranges

/-- The list `motion_ranges` produced by the analysis loop on a `total`-frame
video, before the final `_merge_ranges` call. -/
def motion_ranges_of (detect : Nat → Bool) (frame_skip : Nat) (total : Nat) :
    List (Nat × Nat) :=
  trackFrames detect frame_skip total 0 none []

/-- Loop invariant for the segment tracker: emitted starts are sampled frame
indices, and emitted ends are either one frame before a sampled index (segment
closed at a no-motion sampled frame) or the last frame of the stream. -/
theorem trackFrames_boundaries (d : Nat → Bool) (fs : Nat) :
    ∀ (m fc : Nat) (cur : Option Nat) (acc : List (Nat × Nat)),
      (∀ p ∈ acc, p.1 % fs = 0 ∧ ((p.2 + 1) % fs = 0 ∨ p.2 = fc + m - 1)) →
      (∀ s, cur = some s → s % fs = 0 ∧ s < fc) →
      ∀ p ∈ trackFrames d fs m fc cur acc,
        p.1 % fs = 0 ∧ ((p.2 + 1) % fs = 0 ∨ p.2 = fc + m - 1) := by
  intro m
  induction m with
  | zero =>
      intro fc cur acc hacc hcur p hp
      cases cur with
      | none => exact hacc p (by simpa [trackFrames] using hp)
      | some s =>
          simp only [trackFrames, List.mem_append, List.mem_singleton] at hp
          rcases hp with h | h
          · exact hacc p h
          · obtain ⟨hs, hlt⟩ := hcur s rfl
            subst h
            exact ⟨hs, Or.inr (by omega)⟩
  | succ m ih =>
      intro fc cur acc hacc hcur p hp
      have hshift : fc + (m + 1) - 1 = fc + 1 + m - 1 := by omega
      rw [hshift]
      have hacc' : ∀ q ∈ acc, q.1 % fs = 0 ∧ ((q.2 + 1) % fs = 0 ∨ q.2 = fc + 1 + m - 1) := by
        intro q hq
        obtain ⟨h1, h2⟩ := hacc q hq
        exact ⟨h1, by omega⟩
      by_cases hs : fc % fs = 0
      · cases hd : d fc with
        | true =>
            cases cur with
            | some s =>
                simp only [trackFrames, hs, hd, if_true, if_pos] at hp
                exact ih (fc + 1) (some s) acc hacc'
                  (fun t ht => by
                    obtain ⟨h1, h2⟩ := hcur t ht
                    exact ⟨h1, by omega⟩) p hp
            | none =>
                simp only [trackFrames, hs, hd, if_true, if_pos] at hp
                exact ih (fc + 1) (some fc) acc hacc'
                  (fun t ht => by
                    injection ht with ht'
                    exact ⟨ht' ▸ hs, by omega⟩) p hp
        | false =>
            cases cur with
            | some s =>
                simp only [trackFrames, hs, hd, Bool.false_eq_true, if_false, if_pos] at hp
                obtain ⟨hsmod, hslt⟩ := hcur s rfl
                refine ih (fc + 1) none (acc ++ [(s, fc - 1)]) ?_ (by simp) p hp
                intro q hq
                rcases List.mem_append.mp hq with h | h
                · exact hacc' q h
                · rw [List.mem_singleton] at h
                  subst h
                  refine ⟨hsmod, Or.inl ?_⟩
                  have : fc - 1 + 1 = fc := by omega
                  rw [this]
                  exact hs
            | none =>
                simp only [trackFrames, hs, hd, Bool.false_eq_true, if_false, if_pos] at hp
                exact ih (fc + 1) none acc hacc' (by simp) p hp
      · cases cur with
        | some s =>
            simp only [trackFrames, hs, if_false, if_neg, ite_false] at hp
            exact ih (fc + 1) (some s) acc hacc'
              (fun t ht => by
                obtain ⟨h1, h2⟩ := hcur t ht
                exact ⟨h1, by omega⟩) p hp
        | none =>
            simp only [trackFrames, hs, if_false, if_neg, ite_false] at hp
            exact ih (fc + 1) none acc hacc' (by simp) p hp

/-- If no sampled frame ever reports motion, the tracker emits no segment. -/
theorem trackFrames_all_false (fs : Nat) :
    ∀ (m fc : Nat) (acc : List (Nat × Nat)),
      trackFrames (fun _ => false) fs m fc none acc = acc := by
  intro m
  induction m with
  | zero => intro fc acc; rfl
  | succ m ih =>
      intro fc acc
      by_cases hs : fc % fs = 0
      · rw [trackFrames, if_pos hs]
        exact ih (fc + 1) acc
      · rw [trackFrames, if_neg hs]
        exact ih (fc + 1) acc

/-! ### Motion Scorer — `MotionDetector.detect_motion` (motion_detector.py lines 46–164)

A single-channel image is a row-major grid of pixel intensities, as produced
by `cv2.cvtColor` + `cv2.GaussianBlur` of the input frame (lines 62–63, a
rectangle-independent preprocessing step); `detect_motion` below takes this
blurred grayscale image directly. The differencing pipeline of lines 102–132
(absdiff, threshold, dilate, contours) is a pure function of the stored
reference and the current crop; it is abstracted as the parameter `cmp`.
The visualization frame (third returned value) is not modelled.
-/

structure GrayImage where
  pix : List (List Nat)
deriving DecidableEq, Repr

/-- `shape[0]`: number of rows. -/
def GrayImage.h (g : GrayImage) : Nat := g.pix.length

/-- `shape[1]`: number of columns. -/
def GrayImage.w (g : GrayImage) : Nat := (g.pix.headD []).length

/-- numpy slicing `gray[y1:y2, x1:x2]` (line 81), for the clamped in-range
indices produced by lines 75–76. -/
def GrayImage.sliceCrop (g : GrayImage) (x1 y1 x2 y2 : Nat) : GrayImage :=
  ⟨((g.pix.drop y1).take (y2 - y1)).map (fun row => (row.drop x1).take (x2 - x1))⟩

structure Rect where
  x1 : Int
  y1 : Int
  x2 : Int
  y2 : Int
deriving DecidableEq, Repr

/-- Coordinate normalization, lines 69–72: swap the x pair when `x1 > x2`,
swap the y pair when `y1 > y2`. -/
def normalize_rect (r : Rect) : Rect where
  x1 := if r.x1 > r.x2 then r.x2 else r.x1
  y1 := if r.y1 > r.y2 then r.y2 else r.y1
  x2 := if r.x1 > r.x2 then r.x1 else r.x2
  y2 := if r.y1 > r.y2 then r.y1 else r.y2

/-- Clamping to frame bounds, lines 74–76. -/
def clamp_rect (w h : Nat) (r : Rect) : Rect where
  x1 := max 0 r.x1
  y1 := max 0 r.y1
  x2 := min (w : Int) r.x2
  y2 := min (h : Int) r.y2

/-- The rectangle `detect_motion` actually crops with: normalized, then
clamped to the current frame's dimensions. -/
def clamped_roi (g : GrayImage) (r : Rect) : Rect :=
  clamp_rect g.w g.h (normalize_rect r)

/-- The crop `roi_gray = gray[y1:y2, x1:x2]` for a non-degenerate clamped
rectangle (all four bounds are nonnegative there). -/
def cropRect (g : GrayImage) (c : Rect) : GrayImage :=
  g.sliceCrop c.x1.toNat c.y1.toNat c.x2.toNat c.y2.toNat

/-- Lines 86–164 after the crop: seed the reference when absent (lines
86–92) or when its shape differs from the crop (lines 94–100), otherwise
run the differencing pipeline `cmp`; either way the new stored reference is
the current crop (lines 88, 96, 162). -/
def referenceStep (cmp : GrayImage → GrayImage → Bool × ℚ) (roi_gray : GrayImage)
    (previous_frame : Option GrayImage) : (Bool × ℚ) × Option GrayImage :=
  match previous_frame with
  | none => ((false, 0), some roi_gray)
  | some p =>
      if (p.h, p.w) ≠ (roi_gray.h, roi_gray.w) then ((false, 0), some roi_gray)
      else (cmp p roi_gray, some roi_gray)

/-- `MotionDetector.detect_motion(frame, roi)` as a function of the blurred
grayscale frame, the optional rectangle and the stored `previous_frame`;
returns `((motion_detected, motion_percentage), new_previous_frame)`.
Lines 66–80: normalize, clamp, and bail out clearing the reference when the
clamped rectangle is degenerate (`x2 <= x1 or y2 <= y1`). -/
def detect_motion (cmp : GrayImage → GrayImage → Bool × ℚ) (gray : GrayImage)
    (roi : Option Rect) (previous_frame : Option GrayImage) :
    (Bool × ℚ) × Option GrayImage :=
  match roi with
  | some r =>
      let c := clamped_roi gray r
      if c.x2 ≤ c.x1 ∨ c.y2 ≤ c.y1 then ((false, 0), none)
      else referenceStep cmp (cropRect gray c) previous_frame
  | none => referenceStep cmp gray previous_frame

/-- `MotionDetector.reset()` (lines 37–44): the stored reference becomes
`None` (the background subtractor it also rebuilds is never consulted). -/
def reset : Option GrayImage := none

/-! ### Clip Exporter — `VideoProcessor.export_clip` (video_processor.py lines 98–170) -/

/-- Lines 129–133: `(actual_start, actual_end)` from the segment bounds, the
total frame count, and the padding settings
(`padding_frames_before = int(self.padding_before * fps)`, etc.). -/
def export_bounds (start_frame end_frame total_frames : Int)
    (fps padding_before padding_after : ℚ) : Int × Int :=
  (max 0 (start_frame - pyInt (padding_before * fps)),
   min (total_frames - 1) (end_frame + pyInt (padding_after * fps)))

/-- The write loop of lines 153–166: read-and-write one frame at a time until
`frames_to_write` frames are written or the source yields no more frames;
`available` counts the reads that still succeed, and the returned value is
the final `frames_written`. -/
def exportWriteCount (frames_to_write : Int) : Nat → Nat → Nat
  | 0, frames_written => frames_written
  | available + 1, frames_written =>
      if (frames_written : Int) < frames_to_write then
        exportWriteCount frames_to_write available (frames_written + 1)
      else frames_written

/-! ### Batch loop — `VideoProcessor.process_all_videos` (video_processor.py lines 248–298)

Per-video processing (`self.process_video`, which may raise, e.g. on an
unopenable source via `analyze_video_for_motion`) is abstracted as
`processOne`; the `try/except` of lines 286–296 records `[]` for a video
whose processing raised, and the loop continues. The cancellation flag is
never set in the modelled run.
-/

def process_all_videos {α β ε : Type} (processOne : α → Except ε (List β)) :
    List α → List (α × List β)
  | [] => []
  | v :: rest =>
      (v, match processOne v with
          | Except.ok clips => clips
          | Except.error _ => []) :: process_all_videos processOne rest

/-! ### Claim theorems -/

/-- Claim C1: for every non-empty input list of segments (in arbitrary order)
and every `gap_frames ≥ 0`, the Range Merger's output is sorted ascending by
start, pairwise disjoint, and every adjacent output pair satisfies
`next.start - prev.end > gap_frames`; empty input yields empty output. -/
theorem merge_ranges_output_spec (ranges : List (Int × Int)) (gap_frames : Int)
    (_hne : ranges ≠ []) (hgap : 0 ≤ gap_frames) :
    (mergeRangesFrames ranges gap_frames).Pairwise startLe ∧
    (mergeRangesFrames ranges gap_frames).Pairwise segDisjoint ∧
    (mergeRangesFrames ranges gap_frames).Chain' (fun a b => gap_frames < b.1 - a.2) ∧
    mergeRangesFrames [] gap_frames = [] := by
  have hP := mergeRangesFrames_pairwise ranges gap_frames
  refine ⟨hP.imp (fun h => h.1), ?_, ?_, by simp [mergeRangesFrames]⟩
  · refine hP.imp ?_
    rintro a b ⟨h1, h2⟩ t ⟨ht1, ht2, ht3, ht4⟩
    omega
  · exact (hP.imp (fun h => by omega)).chain'

theorem merge_ranges_output_spec_witness :
    (mergeRangesFrames [((25 : Int), (30 : Int)), (10, 20)] 1).Pairwise startLe ∧
    (mergeRangesFrames [((25 : Int), (30 : Int)), (10, 20)] 1).Pairwise segDisjoint ∧
    (mergeRangesFrames [((25 : Int), (30 : Int)), (10, 20)] 1).Chain'
      (fun a b => 1 < b.1 - a.2) ∧
    mergeRangesFrames [] 1 = [] :=
  merge_ranges_output_spec [(25, 30), (10, 20)] 1 (by simp) (by norm_num)

/-- Claim C6: for every segment list `S`, `fps > 0` and `gap_seconds ≥ 0`,
applying the Range Merger to its own output returns it unchanged. -/
theorem merge_ranges_idempotent (S : List (Int × Int)) (fps gap_seconds : ℚ)
    (_hfps : 0 < fps) (_hg : 0 ≤ gap_seconds) :
    merge_ranges (merge_ranges S fps gap_seconds) fps gap_seconds
      = merge_ranges S fps gap_seconds :=
  mergeRangesFrames_idem S (pyInt (gap_seconds * fps))

theorem merge_ranges_idempotent_witness :
    merge_ranges (merge_ranges [((10 : Int), (20 : Int)), (25, 30)] 10 2) 10 2
      = merge_ranges [((10 : Int), (20 : Int)), (25, 30)] 10 2 :=
  merge_ranges_idempotent [(10, 20), (25, 30)] 10 2 (by norm_num) (by norm_num)

/-- Claim C10: merging loses no coverage and invents no frames — every input
interval is contained in an output interval, and every output interval's
start (resp. end) is the start (resp. end) of some input interval. -/
theorem merge_ranges_coverage (ranges : List (Int × Int)) (gap : Int) :
    (∀ x ∈ ranges, ∃ y ∈ mergeRangesFrames ranges gap, y.1 ≤ x.1 ∧ x.2 ≤ y.2) ∧
    ∀ y ∈ mergeRangesFrames ranges gap,
      (∃ x ∈ ranges, y.1 = x.1) ∧ ∃ x ∈ ranges, y.2 = x.2 := by
  by_cases hr : ranges = []
  · simp [mergeRangesFrames, hr]
  · obtain ⟨first, rest, hsl, heq⟩ := mergeRangesFrames_eq_sweep ranges gap hr
    have hmem : ∀ z : Int × Int, z ∈ ranges ↔ z ∈ first :: rest := by
      intro z
      rw [← hsl, sortRanges, List.mem_insertionSort]
    have hsorted : (first :: rest).Pairwise startLe := by
      have := List.sorted_insertionSort startLe ranges
      rw [sortRanges] at hsl
      rw [hsl] at this
      exact this
    rw [List.pairwise_cons] at hsorted
    constructor
    · intro x hx
      rcases List.mem_cons.mp ((hmem x).mp hx) with hxf | hxr
      · obtain ⟨e2, rest', hsw, hle⟩ := mergeSweep_head gap rest first
        refine ⟨(first.1, e2), ?_, by simp [hxf], ?_⟩
        · rw [heq, hsw]
          exact List.mem_cons_self _ _
        · simpa [hxf] using hle
      · obtain ⟨y, hy, h1, h2⟩ := mergeSweep_cover gap rest first
          (fun z hz => hsorted.1 z hz) hsorted.2 x hxr
        exact ⟨y, heq ▸ hy, h1, h2⟩
    · intro y hy
      rw [heq] at hy
      obtain ⟨h1, h2⟩ := mergeSweep_bounds gap rest first y hy
      constructor
      · rcases h1 with h | ⟨x, hx, hxe⟩
        · exact ⟨first, (hmem first).mpr (List.mem_cons_self _ _), h⟩
        · exact ⟨x, (hmem x).mpr (List.mem_cons_of_mem _ hx), hxe⟩
      · rcases h2 with h | ⟨x, hx, hxe⟩
        · exact ⟨first, (hmem first).mpr (List.mem_cons_self _ _), h⟩
        · exact ⟨x, (hmem x).mpr (List.mem_cons_of_mem _ hx), hxe⟩

theorem merge_ranges_coverage_witness :
    ∃ y ∈ mergeRangesFrames [((25 : Int), (30 : Int)), (10, 20)] 20, y.1 ≤ 25 ∧ 30 ≤ y.2 :=
  (merge_ranges_coverage [(25, 30), (10, 20)] 20).1 (25, 30) (by simp)

/-- Claim C2 counterexample: with `frame_skip = 2` and motion detected only at
sampled frame 2 of a 6-frame video, the loop closes the segment at sampled
frame 4 and emits `(2, 3)` — the end is `current_index - 1 = 3`, not the
previous sampled index 2, and 3 is not a sampled-frame index. -/
theorem segment_end_not_previous_sampled :
    motion_ranges_of (fun i => i == 2) 2 6 = [(2, 3)] ∧
    ((2, 3) : Nat × Nat) ≠ (2, 2) ∧ ¬ 3 % 2 = 0 := by
  decide

/-- Claim C2 (amended): when the tracker is Active and a sampled frame `i`
reports no motion, the segment emitted is `(open_start, i - 1)` — one source
frame before the current sampled frame, not the previous sampled index.
Consequently every emitted start is a sampled-frame index, and every emitted
end is either one frame before a sampled index or the last frame of the
stream; boundaries are all sampled indices only when `frame_skip = 1`. -/
theorem segment_boundaries (d : Nat → Bool) (frame_skip : Nat)
    (_hfs : 1 ≤ frame_skip) :
    (∀ (m fc s : Nat) (acc : List (Nat × Nat)),
        fc % frame_skip = 0 → d fc = false →
        trackFrames d frame_skip (m + 1) fc (some s) acc
          = trackFrames d frame_skip m (fc + 1) none (acc ++ [(s, fc - 1)])) ∧
    ∀ (total : Nat), ∀ p ∈ motion_ranges_of d frame_skip total,
      p.1 % frame_skip = 0 ∧ ((p.2 + 1) % frame_skip = 0 ∨ p.2 = total - 1) := by
  constructor
  · intro m fc s acc hfc hd
    simp [trackFrames, hfc, hd]
  · intro total p hp
    have := trackFrames_boundaries d frame_skip total 0 none []
      (by simp) (by simp) p hp
    simpa using this

theorem segment_boundaries_witness :
    (2, 3) ∈ motion_ranges_of (fun i => i == 2) 2 6 ∧
    2 % 2 = 0 ∧ ((3 + 1) % 2 = 0 ∨ 3 = 6 - 1) :=
  ⟨by decide, (segment_boundaries (fun i => i == 2) 2 (by decide)).2 6 (2, 3) (by decide)⟩

/-- Claim C3: for `0 ≤ start ≤ end ≤ total_frames - 1` and nonnegative
paddings (and frame rate), `export_clip` computes
`actual_start = max(0, start - floor(padding_before * fps))` and
`actual_end = min(total_frames - 1, end + floor(padding_after * fps))`, and
the padded bounds satisfy `0 ≤ actual_start ≤ actual_end ≤ total_frames - 1`. -/
theorem export_clip_padded_bounds (start_frame end_frame total_frames : Int)
    (fps padding_before padding_after : ℚ)
    (h0 : 0 ≤ start_frame) (hse : start_frame ≤ end_frame)
    (het : end_frame ≤ total_frames - 1)
    (hpb : 0 ≤ padding_before) (hpa : 0 ≤ padding_after) (hfps : 0 ≤ fps) :
    (export_bounds start_frame end_frame total_frames fps padding_before padding_after).1
        = max 0 (start_frame - ⌊padding_before * fps⌋) ∧
    (export_bounds start_frame end_frame total_frames fps padding_before padding_after).2
        = min (total_frames - 1) (end_frame + ⌊padding_after * fps⌋) ∧
    0 ≤ (export_bounds start_frame end_frame total_frames fps padding_before padding_after).1 ∧
    (export_bounds start_frame end_frame total_frames fps padding_before padding_after).1
      ≤ (export_bounds start_frame end_frame total_frames fps padding_before padding_after).2 ∧
    (export_bounds start_frame end_frame total_frames fps padding_before padding_after).2
      ≤ total_frames - 1 := by
  have hb : pyInt (padding_before * fps) = ⌊padding_before * fps⌋ := by
    simp [pyInt, mul_nonneg hpb hfps]
  have ha : pyInt (padding_after * fps) = ⌊padding_after * fps⌋ := by
    simp [pyInt, mul_nonneg hpa hfps]
  have hb0 : 0 ≤ ⌊padding_before * fps⌋ := Int.floor_nonneg.mpr (mul_nonneg hpb hfps)
  have ha0 : 0 ≤ ⌊padding_after * fps⌋ := Int.floor_nonneg.mpr (mul_nonneg hpa hfps)
  refine ⟨by simp [export_bounds, hb], by simp [export_bounds, ha], ?_, ?_, ?_⟩ <;>
    simp only [export_bounds, hb, ha] <;> omega

theorem export_clip_padded_bounds_witness :
    0 ≤ (export_bounds 10 30 100 10 2 2).1 ∧
    (export_bounds 10 30 100 10 2 2).1 ≤ (export_bounds 10 30 100 10 2 2).2 ∧
    (export_bounds 10 30 100 10 2 2).2 ≤ 100 - 1 :=
  (export_clip_padded_bounds 10 30 100 10 2 2 (by norm_num) (by norm_num)
    (by norm_num) (by norm_num) (by norm_num) (by norm_num)).2.2

/-- The write loop's count as a function of its loop state: starting from
`frames_written`, it adds one frame per iteration while the target is not
reached and a read still succeeds. -/
theorem exportWriteCount_eq (frames_to_write : Int) :
    ∀ (available frames_written : Nat),
      exportWriteCount frames_to_write available frames_written
        = frames_written + min (frames_to_write - frames_written).toNat available := by
  intro available
  induction available with
  | zero => intro w; simp [exportWriteCount]
  | succ a ih =>
      intro w
      by_cases hw : (w : Int) < frames_to_write
      · rw [exportWriteCount, if_pos hw, ih]
        omega
      · rw [exportWriteCount, if_neg hw]
        omega

/-- Claim C4: the number of frames `export_clip` writes for the padded window
`[actual_start, actual_end]` equals the minimum of the requested count
`actual_end - actual_start + 1` and the number of frames still available from
`actual_start`; running out of frames early only shortens the clip. -/
theorem export_clip_write_count (actual_start actual_end : Int) (available : Nat)
    (h : actual_start ≤ actual_end) :
    (exportWriteCount (actual_end - actual_start + 1) available 0 : Int)
      = min (actual_end - actual_start + 1) (available : Int) := by
  rw [exportWriteCount_eq]
  omega

theorem export_clip_write_count_witness :
    (exportWriteCount (4 - 0 + 1) 3 0 : Int) = min (4 - 0 + 1) ((3 : Nat) : Int) :=
  export_clip_write_count 0 4 3 (by norm_num)

theorem normalize_rect_swap_x (x1 y1 x2 y2 : Int) :
    normalize_rect ⟨x2, y1, x1, y2⟩ = normalize_rect ⟨x1, y1, x2, y2⟩ := by
  simp only [normalize_rect, Rect.mk.injEq]
  refine ⟨?_, ?_, ?_, ?_⟩ <;> first
  | trivial
  | (split_ifs <;> omega)

theorem normalize_rect_swap_y (x1 y1 x2 y2 : Int) :
    normalize_rect ⟨x1, y2, x2, y1⟩ = normalize_rect ⟨x1, y1, x2, y2⟩ := by
  simp only [normalize_rect, Rect.mk.injEq]
  refine ⟨?_, ?_, ?_, ?_⟩ <;> first
  | trivial
  | (split_ifs <;> omega)

theorem normalize_rect_swap_both (x1 y1 x2 y2 : Int) :
    normalize_rect ⟨x2, y2, x1, y1⟩ = normalize_rect ⟨x1, y1, x2, y2⟩ := by
  simp only [normalize_rect, Rect.mk.injEq]
  refine ⟨?_, ?_, ?_, ?_⟩ <;> first
  | trivial
  | (split_ifs <;> omega)

/-- `detect_motion` depends on its rectangle argument only through the
normalized, clamped rectangle. -/
theorem detect_motion_congr (cmp : GrayImage → GrayImage → Bool × ℚ)
    (g : GrayImage) (prev : Option GrayImage) (r r' : Rect)
    (h : normalize_rect r = normalize_rect r') :
    detect_motion cmp g (some r) prev = detect_motion cmp g (some r') prev := by
  simp only [detect_motion, clamped_roi, h]

/-- Claim C8: rectangle input is order-independent — swapping either or both
coordinate pairs leaves `detect_motion`'s result unchanged; in particular the
rectangle normalized from `(500, 400, 100, 100)` equals the one normalized
from `(100, 100, 500, 400)`. -/
theorem detect_motion_rect_order_independent :
    (∀ (cmp : GrayImage → GrayImage → Bool × ℚ) (g : GrayImage)
        (prev : Option GrayImage) (x1 y1 x2 y2 : Int),
        detect_motion cmp g (some ⟨x2, y2, x1, y1⟩) prev
            = detect_motion cmp g (some ⟨x1, y1, x2, y2⟩) prev ∧
        detect_motion cmp g (some ⟨x2, y1, x1, y2⟩) prev
            = detect_motion cmp g (some ⟨x1, y1, x2, y2⟩) prev ∧
        detect_motion cmp g (some ⟨x1, y2, x2, y1⟩) prev
            = detect_motion cmp g (some ⟨x1, y1, x2, y2⟩) prev) ∧
    normalize_rect ⟨500, 400, 100, 100⟩ = normalize_rect ⟨100, 100, 500, 400⟩ := by
  refine ⟨fun cmp g prev x1 y1 x2 y2 => ⟨?_, ?_, ?_⟩, ?_⟩
  · exact detect_motion_congr cmp g prev _ _ (normalize_rect_swap_both x1 y1 x2 y2)
  · exact detect_motion_congr cmp g prev _ _ (normalize_rect_swap_x x1 y1 x2 y2)
  · exact detect_motion_congr cmp g prev _ _ (normalize_rect_swap_y x1 y1 x2 y2)
  · exact normalize_rect_swap_both 100 100 500 400

/-- Claim C5: for any frame and any rectangle that is non-degenerate after
normalization and clamping, if there is no stored reference, or the stored
reference's dimensions differ from the current crop, then `detect_motion`
stores the crop as the new reference and returns `(false, 0.0)`; and after
`reset()` the first scored frame of any video never reports motion. -/
theorem detect_motion_seeding :
    (∀ (cmp : GrayImage → GrayImage → Bool × ℚ) (g : GrayImage) (r : Rect)
        (prev : Option GrayImage),
        (clamped_roi g r).x1 < (clamped_roi g r).x2 →
        (clamped_roi g r).y1 < (clamped_roi g r).y2 →
        (prev = none ∨ ∃ p, prev = some p ∧
            ((p.h, p.w) ≠ ((cropRect g (clamped_roi g r)).h, (cropRect g (clamped_roi g r)).w))) →
        detect_motion cmp g (some r) prev
          = ((false, 0), some (cropRect g (clamped_roi g r)))) ∧
    ∀ (cmp : GrayImage → GrayImage → Bool × ℚ) (g : GrayImage) (roi : Option Rect),
      (detect_motion cmp g roi reset).1 = (false, 0) := by
  constructor
  · intro cmp g r prev hx hy hseed
    have hdeg : ¬((clamped_roi g r).x2 ≤ (clamped_roi g r).x1 ∨
        (clamped_roi g r).y2 ≤ (clamped_roi g r).y1) := by omega
    rcases hseed with rfl | ⟨p, rfl, hne⟩
    · simp [detect_motion, hdeg, referenceStep]
    · simp [detect_motion, hdeg, referenceStep, hne]
  · intro cmp g roi
    cases roi with
    | none => rfl
    | some r =>
        by_cases hdeg : (clamped_roi g r).x2 ≤ (clamped_roi g r).x1 ∨
            (clamped_roi g r).y2 ≤ (clamped_roi g r).y1
        · simp [detect_motion, hdeg]
        · simp [detect_motion, hdeg, referenceStep, reset]

theorem detect_motion_seeding_witness :
    detect_motion (fun _ _ => (true, 1)) ⟨[[1, 2], [3, 4]]⟩ (some ⟨0, 0, 2, 2⟩) none
      = ((false, 0),
          some (cropRect ⟨[[1, 2], [3, 4]]⟩ (clamped_roi ⟨[[1, 2], [3, 4]]⟩ ⟨0, 0, 2, 2⟩))) :=
  detect_motion_seeding.1 (fun _ _ => (true, 1)) ⟨[[1, 2], [3, 4]]⟩ ⟨0, 0, 2, 2⟩ none
    (by decide) (by decide) (Or.inl rfl)

/-- Claim C7: if the rectangle is degenerate after normalization and clamping,
`detect_motion` returns `(false, 0.0)` and clears the stored reference; a
frame stream that never reports motion yields zero segments, and merging the
empty segment list yields zero merged segments (hence zero clips). -/
theorem detect_motion_degenerate_rect :
    (∀ (cmp : GrayImage → GrayImage → Bool × ℚ) (g : GrayImage) (r : Rect)
        (prev : Option GrayImage),
        ((clamped_roi g r).x2 ≤ (clamped_roi g r).x1 ∨
            (clamped_roi g r).y2 ≤ (clamped_roi g r).y1) →
        detect_motion cmp g (some r) prev = ((false, 0), none)) ∧
    (∀ (frame_skip total : Nat),
        motion_ranges_of (fun _ => false) frame_skip total = []) ∧
    ∀ gap : Int, mergeRangesFrames [] gap = [] := by
  refine ⟨?_, ?_, ?_⟩
  · intro cmp g r prev hdeg
    simp [detect_motion, hdeg]
  · intro frame_skip total
    exact trackFrames_all_false frame_skip total 0 []
  · intro gap
    simp [mergeRangesFrames]

theorem detect_motion_degenerate_rect_witness :
    detect_motion (fun _ _ => (true, 1)) ⟨[[1, 2], [3, 4]]⟩ (some ⟨1, 1, 1, 3⟩)
        (some ⟨[[1, 2], [3, 4]]⟩)
      = ((false, 0), none) :=
  detect_motion_degenerate_rect.1 (fun _ _ => (true, 1)) ⟨[[1, 2], [3, 4]]⟩ ⟨1, 1, 1, 3⟩
    (some ⟨[[1, 2], [3, 4]]⟩) (by decide)

/-- Claim C9: an exception raised while processing one video of a batch is
caught by the outer loop, the video is recorded with an empty clip list, and
every video of the batch is still processed (successful ones keep their
clips); no per-video failure aborts the batch. -/
theorem process_all_videos_isolates_failures {α β ε : Type}
    (processOne : α → Except ε (List β)) (videos : List α) :
    (process_all_videos processOne videos).map Prod.fst = videos ∧
    (∀ v err, v ∈ videos → processOne v = Except.error err →
        (v, ([] : List β)) ∈ process_all_videos processOne videos) ∧
    ∀ v clips, v ∈ videos → processOne v = Except.ok clips →
        (v, clips) ∈ process_all_videos processOne videos := by
  induction videos with
  | nil => simp [process_all_videos]
  | cons v rest ih =>
      refine ⟨?_, ?_, ?_⟩
      · simp [process_all_videos, ih.1]
      · intro u err hu herr
        rcases List.mem_cons.mp hu with rfl | hu'
        · simp [process_all_videos, herr]
        · exact List.mem_cons_of_mem _ (ih.2.1 u err hu' herr)
      · intro u clips hu hok
        rcases List.mem_cons.mp hu with rfl | hu'
        · simp [process_all_videos, hok]
        · exact List.mem_cons_of_mem _ (ih.2.2 u clips hu' hok)

theorem process_all_videos_isolates_failures_witness :
    (1, ([] : List Nat)) ∈ process_all_videos
        (fun v : Nat => if v = 1 then (Except.error 0 : Except Nat (List Nat))
          else Except.ok [v]) [0, 1, 2] :=
  (process_all_videos_isolates_failures
      (fun v : Nat => if v = 1 then (Except.error 0 : Except Nat (List Nat))
        else Except.ok [v]) [0, 1, 2]).2.1 1 0 (by simp) (by simp)

end Secam
